import Mathlib

/-!
Verification of the freestanding memory utilities of
`src/sdk/bpf/c/inc/sol/string.h`: the byte primitives `sol_memcpy`,
`sol_memmove`, `sol_memcmp`, `sol_strlen` and the bump allocator
`sol_calloc`.

Memory is modelled as a function from addresses to stored byte values
(`Nat → Nat`); a null pointer is the address `0`.  Machine integers are
modelled as naturals with explicit reduction modulo `2 ^ 64` (for
`uint64_t` / `size_t`) and modulo `256` (for `uint8_t`) exactly where the
C types force a reduction.
-/

namespace SolString

/-- Pointwise update of a memory, modelling a single byte store. -/
def upd (mem : Nat → Nat) (a v : Nat) : Nat → Nat :=
  fun x => if x = a then v else mem x

/-- The loop of `sol_memcpy`: `for (i = 0; i < len; i++) dst[i] = src[i];`,
    unrolled as a recursion on the remaining count with both pointers
    advancing. -/
def memcpyLoop (dst src : Nat) : Nat → (Nat → Nat) → (Nat → Nat)
  | 0, mem => mem
  | n + 1, mem => memcpyLoop (dst + 1) (src + 1) n (upd mem dst (mem src))

/-- `sol_memcpy(dst, src, len)` from `sol/string.h`: null checks, then a
    forward byte copy. -/
def sol_memcpy (mem : Nat → Nat) (dst src len : Nat) : Nat → Nat :=
  if dst = 0 ∨ src = 0 then mem else memcpyLoop dst src len mem

/-- The second loop of `sol_memmove`:
    `for (i = len - 1; i >= 0; i--) dest[i] = source[i];`
    (indices processed in descending order). -/
def memmoveBack (dst src : Nat) : Nat → (Nat → Nat) → (Nat → Nat)
  | 0, mem => mem
  | n + 1, mem => memmoveBack dst src n (upd mem (dst + n) (mem (src + n)))

/-- `sol_memmove(dst, src, len)` from `sol/string.h`.  Note the source has
    no `else` (and no `return`) after the `dest < source` branch: the
    backward loop runs unconditionally after the forward `sol_memcpy`. -/
def sol_memmove (mem : Nat → Nat) (dst src len : Nat) : Nat → Nat :=
  if dst = 0 ∨ src = 0 ∨ src = dst then mem
  else
    memmoveBack dst src len (if dst < src then sol_memcpy mem dst src len else mem)

/-- Unsigned 8-bit subtraction, modelling `uint8_t diff = x - y`. -/
def u8sub (x y : Nat) : Nat := (x % 256 + 256 - y % 256) % 256

/-- The loop of `sol_memcmp`: `uint8_t diff = *(s1+i) - *(s2+i); if (diff)
    return diff;` — return the `uint8_t` difference at the first index where
    the bytes differ, `0` if all `n` bytes agree. -/
def memcmpLoop (mem : Nat → Nat) : Nat → Nat → Nat → Nat
  | _, _, 0 => 0
  | s1, s2, n + 1 =>
    if u8sub (mem s1) (mem s2) ≠ 0 then u8sub (mem s1) (mem s2)
    else memcmpLoop mem (s1 + 1) (s2 + 1) n

/-- `sol_memcmp(s1, s2, n)` from `sol/string.h`. -/
def sol_memcmp (mem : Nat → Nat) (s1 s2 n : Nat) : Nat :=
  if s1 = 0 ∨ s2 = 0 then 1 else memcmpLoop mem s1 s2 n

/-- The `while (1)` scan of `sol_strlen`, four bytes per round.  The C loop
    terminates only when a zero byte exists, so the embedding carries an
    explicit `fuel` bound on the number of rounds; every theorem below shows
    the result is independent of the fuel once the fuel is large enough. -/
def strlenLoop (mem : Nat → Nat) (ref : Nat) : Nat → Nat → Nat
  | 0, _ => 0
  | fuel + 1, s =>
    if mem s % 256 = 0 then s - ref
    else if mem (s + 1) % 256 = 0 then s - ref + 1
    else if mem (s + 2) % 256 = 0 then s - ref + 2
    else if mem (s + 3) % 256 = 0 then s - ref + 3
    else strlenLoop mem ref fuel (s + 4)

/-- `sol_strlen(s)` from `sol/string.h` (with the fuel artifact of the
    embedding). -/
def sol_strlen (mem : Nat → Nat) (s fuel : Nat) : Nat :=
  if s = 0 then 0 else strlenLoop mem s fuel s

/-- Read `n` consecutive bytes of a memory, for stating concrete tests. -/
def readBytes (mem : Nat → Nat) (a n : Nat) : List Nat :=
  (List.range n).map fun i => mem (a + i)

/-- A memory holding the bytes of `l` starting at address `base`, zero
    elsewhere. -/
def bufMem (l : List Nat) (base : Nat) : Nat → Nat :=
  fun a => if base ≤ a ∧ a < base + l.length then l.getD (a - base) 0 else 0

/-- The test buffer `"abcdefgh"`. -/
def abcdefgh : List Nat := [97, 98, 99, 100, 101, 102, 103, 104]

/-! ### The bump allocator `sol_calloc`

The allocator's only state is the `uint64_t` word stored at
`HEAP_START_ADDRESS`; `sol_calloc` is modelled as a function from that
stored word (plus the two arguments) to the returned pointer (`Option Nat`,
`none` for `NULL`) and the stored word after the call. -/

/-- `2 ^ 64`, the modulus of `uint64_t` arithmetic. -/
def M64 : Nat := 2 ^ 64

/-- `HEAP_START_ADDRESS` from `sol/string.h`. -/
def HEAP_START_ADDRESS : Nat := 0x300000000

/-- `HEAP_LENGTH` from `sol/string.h`. -/
def HEAP_LENGTH : Nat := 32 * 1024

/-- Wrapping `uint64_t` subtraction (defined for arguments below `2 ^ 64`). -/
def sub64 (a b : Nat) : Nat := (M64 + a - b) % M64

/-- Bitwise complement on 64-bit values: `~x = (2^64 - 1) - x` for `x < 2^64`. -/
def not64 (x : Nat) : Nat := M64 - 1 - x

/-- `align |= align >> 1;` -/
def smear1 (m : Nat) : Nat := m ||| m >>> 1

/-- `align |= align >> 2;` -/
def smear2 (m : Nat) : Nat := smear1 m ||| smear1 m >>> 2

/-- `align |= align >> 4;` -/
def smear4 (m : Nat) : Nat := smear2 m ||| smear2 m >>> 4

/-- `align |= align >> 8;` -/
def smear8 (m : Nat) : Nat := smear4 m ||| smear4 m >>> 8

/-- `align |= align >> 16;` -/
def smear16 (m : Nat) : Nat := smear8 m ||| smear8 m >>> 16

/-- `align |= align >> 32;`, completing the six or-shift statements of
    `sol_calloc`. -/
def smear (m : Nat) : Nat := smear16 m ||| smear16 m >>> 32

/-- The alignment computed by `sol_calloc`:
    `align = size; align--; align |= align >> 1; ...; align++;`. -/
def callocAlign (size : Nat) : Nat := (smear (sub64 size 1) + 1) % M64

/-- `pos` after the lazy initialization: `if (pos == 0) pos = HEAP_START_ADDRESS
    + HEAP_LENGTH;`. -/
def callocPos0 (st : Nat) : Nat :=
  if st = 0 then HEAP_START_ADDRESS + HEAP_LENGTH else st

/-- `uint64_t bytes = (uint64_t)(nitems * size);` (the `size_t` product,
    wrapping modulo `2 ^ 64`). -/
def callocBytes (nitems size : Nat) : Nat := nitems * size % M64

/-- The failure condition
    `size == 0 || !(nitems == 0 || size == 0) && !(nitems == bytes / size)`. -/
def callocOverflow (nitems size : Nat) : Prop :=
  size = 0 ∨ (¬(nitems = 0 ∨ size = 0) ∧ ¬nitems = callocBytes nitems size / size)

instance (nitems size : Nat) : Decidable (callocOverflow nitems size) :=
  inferInstanceAs (Decidable (_ ∨ _))

/-- `pos` after the saturation step: `if (pos < bytes) pos = 0; else pos -=
    bytes;`. -/
def callocPos1 (st nitems size : Nat) : Nat :=
  if callocPos0 st < callocBytes nitems size then 0
  else callocPos0 st - callocBytes nitems size

/-- `pos` after the alignment step `pos &= ~(align - 1);`. -/
def callocPos2 (st nitems size : Nat) : Nat :=
  callocPos1 st nitems size &&& not64 (sub64 (callocAlign size) 1)

/-- `sol_calloc(nitems, size)` from `sol/string.h`, as a function of the
    cursor word stored at `HEAP_START_ADDRESS`; returns the result
    (`none` = `NULL`) and the stored word after the call.  The store
    `*pos_ptr = pos;` is executed only on the success path; both `return
    NULL;` paths leave the word untouched.  `sizeof(uint8_t*)` is `8`. -/
def sol_calloc (st nitems size : Nat) : Option Nat × Nat :=
  if callocOverflow nitems size then (none, st)
  else if callocPos2 st nitems size < HEAP_START_ADDRESS + 8 then (none, st)
  else (some (callocPos2 st nitems size), callocPos2 st nitems size)

/-- Run a list of `(nitems, size)` calls against the allocator, collecting
    the `(base, nitems, size)` of each successful allocation (in call
    order) together with the final stored cursor word. -/
def runCalloc (st : Nat) : List (Nat × Nat) → Nat × List (Nat × Nat × Nat)
  | [] => (st, [])
  | (nitems, size) :: calls =>
    match sol_calloc st nitems size with
    | (none, st') => runCalloc st' calls
    | (some b, st') =>
      let r := runCalloc st' calls
      (r.1, (b, nitems, size) :: r.2)

/-- The smallest power of two that is `≥ size` (for `size ≥ 1`): the
    alignment promised by the specification of `calloc`. -/
def nextPow2 (size : Nat) : Nat := 2 ^ Nat.size (size - 1)

/-- The invariant claimed of the stored cursor word: once non-zero it stays
    within `[HEAP_START + 8, HEAP_START + HEAP_LENGTH]`. -/
def cursorOk (st : Nat) : Prop :=
  st ≠ 0 → HEAP_START_ADDRESS + 8 ≤ st ∧ st ≤ HEAP_START_ADDRESS + HEAP_LENGTH

instance (st : Nat) : Decidable (cursorOk st) :=
  inferInstanceAs (Decidable (_ → _))

/-- Successive allocations below a high bound: each recorded allocation's
    byte range `[b, b + nitems * size)` lies below the previous base. -/
def ChainBelow : Nat → List (Nat × Nat × Nat) → Prop
  | _, [] => True
  | hi, (b, nitems, size) :: rest => b + nitems * size ≤ hi ∧ ChainBelow b rest

/-! ### Bit-level facts about the or-shift cascade and the alignment mask -/

lemma orShift_testBit (a D i : Nat) :
    (a ||| a >>> D).testBit i = (a.testBit i || a.testBit (i + D)) := by
  rw [Nat.testBit_or, Nat.testBit_shiftRight, Nat.add_comm D i]

lemma orShift_spread {a m : Nat} (D : Nat)
    (h : ∀ i, a.testBit i = true ↔ ∃ d, d < D ∧ m.testBit (i + d) = true) :
    ∀ i, (a ||| a >>> D).testBit i = true ↔
      ∃ d, d < 2 * D ∧ m.testBit (i + d) = true := by
  intro i
  rw [orShift_testBit, Bool.or_eq_true, h i, h (i + D)]
  constructor
  · rintro (⟨d, hd, hbit⟩ | ⟨d, hd, hbit⟩)
    · exact ⟨d, by omega, hbit⟩
    · refine ⟨D + d, by omega, ?_⟩
      have he : i + (D + d) = i + D + d := by omega
      rw [he]; exact hbit
  · rintro ⟨d, hd, hbit⟩
    rcases Nat.lt_or_ge d D with hc | hc
    · exact Or.inl ⟨d, hc, hbit⟩
    · refine Or.inr ⟨d - D, by omega, ?_⟩
      have he : i + D + (d - D) = i + d := by omega
      rw [he]; exact hbit

lemma smear_testBit (m : Nat) :
    ∀ i, (smear m).testBit i = true ↔ ∃ d, d < 64 ∧ m.testBit (i + d) = true := by
  have h0 : ∀ i, m.testBit i = true ↔ ∃ d, d < 1 ∧ m.testBit (i + d) = true := by
    intro i
    constructor
    · intro hb; exact ⟨0, Nat.zero_lt_one, by simpa using hb⟩
    · rintro ⟨d, hd, hb⟩
      have : d = 0 := by omega
      subst this; simpa using hb
  exact orShift_spread 32 (orShift_spread 16 (orShift_spread 8
    (orShift_spread 4 (orShift_spread 2 (orShift_spread 1 h0)))))

lemma testBit_size_sub_one {m : Nat} (hm : m ≠ 0) :
    m.testBit (Nat.size m - 1) = true := by
  have hpos : 0 < Nat.size m := by
    rcases Nat.eq_zero_or_pos (Nat.size m) with h | h
    · exact absurd (Nat.size_eq_zero.mp h) hm
    · exact h
  have hle : 2 ^ (Nat.size m - 1) ≤ m := Nat.lt_size.mp (by omega)
  have hlt : m < 2 ^ Nat.size m := Nat.lt_size_self m
  have hdiv : m / 2 ^ (Nat.size m - 1) = 1 := by
    refine Nat.div_eq_of_lt_le (by omega) ?_
    have he : (1 + 1) * 2 ^ (Nat.size m - 1) = 2 ^ (Nat.size m - 1 + 1) := by
      rw [Nat.pow_succ]; ring
    have he2 : Nat.size m - 1 + 1 = Nat.size m := by omega
    rw [he, he2]
    exact hlt
  rw [Nat.testBit_to_div_mod, hdiv]
  decide

/-- The six or-shift statements set every bit below the leading bit:
    `smear m = 2 ^ bitlength(m) - 1` for any 64-bit value `m`. -/
lemma smear_eq {m : Nat} (h : m < 2 ^ 64) : smear m = 2 ^ Nat.size m - 1 := by
  apply Nat.eq_of_testBit_eq
  intro i
  rw [Nat.testBit_two_pow_sub_one]
  rcases Nat.lt_or_ge i (Nat.size m) with hlt | hge
  · have hm : m ≠ 0 := by
      intro h0
      rw [h0, Nat.size_zero] at hlt
      omega
    have hsz : Nat.size m ≤ 64 := Nat.size_le.mpr h
    have : (smear m).testBit i = true := by
      rw [smear_testBit]
      refine ⟨Nat.size m - 1 - i, by omega, ?_⟩
      have he : i + (Nat.size m - 1 - i) = Nat.size m - 1 := by omega
      rw [he]
      exact testBit_size_sub_one hm
    simp [this, hlt]
  · have : (smear m).testBit i = false := by
      rw [← Bool.not_eq_true, smear_testBit]
      rintro ⟨d, hd, hbit⟩
      have hge2 : 2 ^ (i + d) ≤ m := Nat.testBit_implies_ge hbit
      have : i + d < Nat.size m := Nat.lt_size.mpr hge2
      omega
    simp [this]
    omega

/-- `x & ~(2^k - 1)` rounds a 64-bit value down to a multiple of `2^k`. -/
lemma and_not64_two_pow (x k : Nat) (hx : x < 2 ^ 64) (hk : k ≤ 64) :
    x &&& not64 (2 ^ k - 1) = 2 ^ k * (x / 2 ^ k) := by
  have hpk : (2 : Nat) ^ k ≤ 2 ^ 64 := Nat.pow_le_pow_right (by norm_num) hk
  have hmask : not64 (2 ^ k - 1) = (2 ^ (64 - k) - 1) <<< k := by
    rw [Nat.shiftLeft_eq]
    have h2 : 2 ^ (64 - k) * 2 ^ k = 2 ^ 64 := by
      rw [← Nat.pow_add]
      congr 1
      omega
    have h3 : (2 ^ (64 - k) - 1) * 2 ^ k = 2 ^ 64 - 2 ^ k := by
      rw [Nat.sub_mul, Nat.one_mul, h2]
    unfold not64 M64
    rw [h3]
    have h1 : (1 : Nat) ≤ 2 ^ k := Nat.one_le_two_pow
    omega
  have hrhs : 2 ^ k * (x / 2 ^ k) = (x >>> k) <<< k := by
    rw [Nat.shiftLeft_eq, Nat.shiftRight_eq_div_pow, Nat.mul_comm]
  rw [hmask, hrhs]
  apply Nat.eq_of_testBit_eq
  intro i
  rw [Nat.testBit_and, Nat.testBit_shiftLeft, Nat.testBit_shiftLeft,
    Nat.testBit_two_pow_sub_one, Nat.testBit_shiftRight]
  rcases Nat.lt_or_ge i k with hik | hik
  · have h1 : ¬ i ≥ k := by omega
    simp [h1]
  · have he : k + (i - k) = i := by omega
    rw [he]
    rcases Nat.lt_or_ge i 64 with hi64 | hi64
    · have h2 : i - k < 64 - k := by omega
      simp [hik, h2]
    · have hxb : x.testBit i = false :=
        Nat.testBit_lt_two_pow
          (lt_of_lt_of_le hx (Nat.pow_le_pow_right (by norm_num) hi64))
      simp [hxb]

/-! ### The alignment computed by `sol_calloc` -/

/-- `nextPow2 size` really is the least power of two `≥ size`. -/
lemma nextPow2_is_least (size : Nat) (h : 1 ≤ size) :
    size ≤ nextPow2 size ∧ ∀ k, size ≤ 2 ^ k → nextPow2 size ≤ 2 ^ k := by
  constructor
  · have := Nat.lt_size_self (size - 1)
    unfold nextPow2
    omega
  · intro k hk
    unfold nextPow2
    exact Nat.pow_le_pow_right (by norm_num) (Nat.size_le.mpr (by omega))

lemma sub64_one {a : Nat} (h1 : 1 ≤ a) (h2 : a < M64) : sub64 a 1 = a - 1 := by
  unfold sub64 M64 at *
  omega

lemma sub64_zero_one : sub64 0 1 = M64 - 1 := by
  unfold sub64 M64
  omega

lemma not64_all_ones : not64 (M64 - 1) = 0 := by
  unfold not64
  omega

lemma callocAlign_eq_nextPow2 {size : Nat} (h1 : 1 ≤ size) (h2 : size ≤ 2 ^ 63) :
    callocAlign size = nextPow2 size := by
  have hs : size < M64 := by unfold M64; omega
  have hm : size - 1 < 2 ^ 64 := by omega
  unfold callocAlign
  rw [sub64_one h1 hs, smear_eq hm]
  have hk : Nat.size (size - 1) ≤ 63 := Nat.size_le.mpr (by omega)
  have hple : (2 : Nat) ^ Nat.size (size - 1) ≤ 2 ^ 63 :=
    Nat.pow_le_pow_right (by norm_num) hk
  have hpos : (1 : Nat) ≤ 2 ^ Nat.size (size - 1) := Nat.one_le_two_pow
  unfold nextPow2 M64
  omega

lemma callocAlign_zero {size : Nat} (h1 : 2 ^ 63 < size) (h2 : size < M64) :
    callocAlign size = 0 := by
  have hm : size - 1 < 2 ^ 64 := by unfold M64 at h2; omega
  unfold callocAlign
  rw [sub64_one (by omega) h2, smear_eq hm]
  have hk : Nat.size (size - 1) = 64 := by
    have hub : Nat.size (size - 1) ≤ 64 := Nat.size_le.mpr hm
    have hlb : 63 < Nat.size (size - 1) := Nat.lt_size.mpr (by omega)
    omega
  rw [hk]
  unfold M64
  omega

/-! ### Path lemmas for `sol_calloc` -/

lemma sol_calloc_of_overflow {st nitems size : Nat}
    (h : callocOverflow nitems size) : sol_calloc st nitems size = (none, st) := by
  unfold sol_calloc
  simp [h]

lemma sol_calloc_of_low {st nitems size : Nat}
    (hbd : callocPos2 st nitems size < HEAP_START_ADDRESS + 8) :
    sol_calloc st nitems size = (none, st) := by
  unfold sol_calloc
  by_cases hov : callocOverflow nitems size <;> simp [hov, hbd]

lemma sol_calloc_of_ok {st nitems size : Nat}
    (hov : ¬callocOverflow nitems size)
    (hbd : ¬callocPos2 st nitems size < HEAP_START_ADDRESS + 8) :
    sol_calloc st nitems size =
      (some (callocPos2 st nitems size), callocPos2 st nitems size) := by
  unfold sol_calloc
  simp [hov, hbd]

lemma callocPos1_le (st nitems size : Nat) :
    callocPos1 st nitems size ≤ callocPos0 st := by
  unfold callocPos1
  split <;> omega

lemma callocPos2_le (st nitems size : Nat) :
    callocPos2 st nitems size ≤ callocPos1 st nitems size :=
  Nat.and_le_left

lemma callocPos0_lt {st : Nat} (hst : st < M64) : callocPos0 st < M64 := by
  unfold callocPos0
  split
  · unfold HEAP_START_ADDRESS HEAP_LENGTH M64
    omega
  · exact hst

lemma callocPos0_bounds {st : Nat} (h : cursorOk st) :
    HEAP_START_ADDRESS + 8 ≤ callocPos0 st ∧
      callocPos0 st ≤ HEAP_START_ADDRESS + HEAP_LENGTH := by
  unfold callocPos0
  split
  · unfold HEAP_START_ADDRESS HEAP_LENGTH
    omega
  · exact h (by assumption)

lemma callocPos2_zero_of_sat {st nitems size : Nat}
    (h : callocPos0 st < callocBytes nitems size) :
    callocPos2 st nitems size = 0 := by
  unfold callocPos2 callocPos1
  rw [if_pos h]
  exact Nat.zero_and _

lemma overflow_cases {nitems size : Nat} (h : ¬callocOverflow nitems size) :
    size ≠ 0 ∧ (nitems = 0 ∨ nitems = callocBytes nitems size / size) := by
  unfold callocOverflow at h
  tauto

lemma product_of_no_overflow {nitems size : Nat} (h : ¬callocOverflow nitems size) :
    nitems * size < M64 ∧ callocBytes nitems size = nitems * size := by
  obtain ⟨hsz, hcase⟩ := overflow_cases h
  have hM : 0 < M64 := by unfold M64; positivity
  have hlt : nitems * size < M64 := by
    rcases hcase with h0 | heq
    · rw [h0, Nat.zero_mul]
      exact hM
    · by_contra hge
      push_neg at hge
      have hblt : callocBytes nitems size < M64 := Nat.mod_lt _ hM
      have hbp : callocBytes nitems size < nitems * size := lt_of_lt_of_le hblt hge
      have : callocBytes nitems size / size < nitems :=
        (Nat.div_lt_iff_lt_mul (Nat.pos_of_ne_zero hsz)).mpr
          (by rw [Nat.mul_comm] at hbp ⊢; exact hbp)
      omega
  exact ⟨hlt, Nat.mod_eq_of_lt hlt⟩

/-- Everything the success path of `sol_calloc` guarantees: the stored word
    equals the returned base, the base is in bounds, aligned to the least
    power of two `≥ size`, and the requested bytes fit below the incoming
    (lazily initialized) cursor. -/
lemma sol_calloc_some_props {st nitems size b st' : Nat}
    (hst : st < M64) (hsize : size < M64)
    (h : sol_calloc st nitems size = (some b, st')) :
    st' = b ∧ HEAP_START_ADDRESS + 8 ≤ b ∧ 1 ≤ size ∧ size ≤ 2 ^ 63 ∧
      nitems * size < M64 ∧ b % nextPow2 size = 0 ∧
      b + nitems * size ≤ callocPos0 st := by
  by_cases hov : callocOverflow nitems size
  · rw [sol_calloc_of_overflow hov] at h
    exact absurd (congrArg Prod.fst h) (by simp)
  by_cases hbd : callocPos2 st nitems size < HEAP_START_ADDRESS + 8
  · rw [sol_calloc_of_low hbd] at h
    exact absurd (congrArg Prod.fst h) (by simp)
  rw [sol_calloc_of_ok hov hbd] at h
  have hb : b = callocPos2 st nitems size :=
    (Option.some.inj (congrArg Prod.fst h)).symm
  have hst' : st' = b := by
    rw [hb]
    exact (congrArg Prod.snd h).symm
  have hHS : HEAP_START_ADDRESS + 8 ≤ b := by
    rw [hb]
    omega
  obtain ⟨hsz0, _⟩ := overflow_cases hov
  obtain ⟨hprod, hbytes⟩ := product_of_no_overflow hov
  have hs1 : 1 ≤ size := Nat.pos_of_ne_zero hsz0
  have hbpos : 0 < b := by
    have : 0 < HEAP_START_ADDRESS + 8 := by unfold HEAP_START_ADDRESS; omega
    omega
  have hs63 : size ≤ 2 ^ 63 := by
    by_contra hgt
    push_neg at hgt
    have hz : callocAlign size = 0 := callocAlign_zero hgt hsize
    have : callocPos2 st nitems size = 0 := by
      unfold callocPos2
      rw [hz, sub64_zero_one, not64_all_ones, Nat.and_zero]
    omega
  -- the saturated branch can never pass the bounds check
  have hnosat : ¬ callocPos0 st < callocBytes nitems size := by
    intro hsat
    have := callocPos2_zero_of_sat hsat
    omega
  have hpos1 : callocPos1 st nitems size = callocPos0 st - callocBytes nitems size := by
    unfold callocPos1
    rw [if_neg hnosat]
  -- the alignment mask
  have hk63 : Nat.size (size - 1) ≤ 63 := Nat.size_le.mpr (by unfold M64 at hsize; omega)
  have halign : callocAlign size = 2 ^ Nat.size (size - 1) :=
    callocAlign_eq_nextPow2 hs1 hs63
  have halign_lt : callocAlign size < M64 := by
    rw [halign]
    have : (2 : Nat) ^ Nat.size (size - 1) ≤ 2 ^ 63 :=
      Nat.pow_le_pow_right (by norm_num) hk63
    unfold M64
    omega
  have halign_pos : 1 ≤ callocAlign size := by
    rw [halign]
    exact Nat.one_le_two_pow
  have hpos1_lt : callocPos1 st nitems size < 2 ^ 64 := by
    have h1 := callocPos1_le st nitems size
    have h2 := callocPos0_lt hst
    unfold M64 at h2
    omega
  have hpos2 : callocPos2 st nitems size =
      2 ^ Nat.size (size - 1) *
        (callocPos1 st nitems size / 2 ^ Nat.size (size - 1)) := by
    unfold callocPos2
    rw [halign, sub64_one Nat.one_le_two_pow (by rw [← halign]; exact halign_lt)]
    exact and_not64_two_pow _ _ hpos1_lt (by omega)
  have hmod : b % nextPow2 size = 0 := by
    rw [hb, hpos2]
    unfold nextPow2
    exact Nat.mul_mod_right _ _
  have hble : b ≤ callocPos1 st nitems size := by
    rw [hb]
    exact callocPos2_le st nitems size
  have hfit : b + nitems * size ≤ callocPos0 st := by
    have hby : callocBytes nitems size ≤ callocPos0 st := by omega
    rw [hpos1] at hble
    rw [hbytes] at hby hble
    omega
  exact ⟨hst', hHS, hs1, hs63, hprod, hmod, hfit⟩

lemma sol_calloc_none_snd {st nitems size st' : Nat}
    (h : sol_calloc st nitems size = (none, st')) : st' = st := by
  by_cases hov : callocOverflow nitems size
  · rw [sol_calloc_of_overflow hov] at h
    exact (congrArg Prod.snd h).symm
  by_cases hbd : callocPos2 st nitems size < HEAP_START_ADDRESS + 8
  · rw [sol_calloc_of_low hbd] at h
    exact (congrArg Prod.snd h).symm
  · rw [sol_calloc_of_ok hov hbd] at h
    exact absurd (congrArg Prod.fst h) (by simp)

lemma callocPos0_of_ne {st : Nat} (h : st ≠ 0) : callocPos0 st = st :=
  if_neg h

lemma heap_end_lt_M64 : HEAP_START_ADDRESS + HEAP_LENGTH < M64 := by
  unfold HEAP_START_ADDRESS HEAP_LENGTH M64
  omega

/-- One `sol_calloc` call preserves the cursor-word invariant. -/
lemma cursorOk_preserved (st nitems size : Nat) (h : cursorOk st) :
    cursorOk (sol_calloc st nitems size).2 := by
  by_cases hov : callocOverflow nitems size
  · rw [sol_calloc_of_overflow hov]
    exact h
  by_cases hbd : callocPos2 st nitems size < HEAP_START_ADDRESS + 8
  · rw [sol_calloc_of_low hbd]
    exact h
  rw [sol_calloc_of_ok hov hbd]
  show cursorOk (callocPos2 st nitems size)
  unfold cursorOk
  intro _
  obtain ⟨h1, h2⟩ := callocPos0_bounds h
  have h3 := callocPos2_le st nitems size
  have h4 := callocPos1_le st nitems size
  omega

lemma runCalloc_fst_cursorOk (calls : List (Nat × Nat)) :
    ∀ st : Nat, cursorOk st → cursorOk (runCalloc st calls).1 := by
  induction calls with
  | nil => intro st h; exact h
  | cons c calls ih =>
    intro st h
    obtain ⟨nitems, size⟩ := c
    have hpres := cursorOk_preserved st nitems size h
    unfold runCalloc
    rcases hres : sol_calloc st nitems size with ⟨r, st'⟩
    rw [hres] at hpres
    rcases r with _ | b
    · exact ih st' hpres
    · exact ih st' hpres

/-- Running any sequence of calls yields a descending chain of disjoint
    allocations, each in bounds and aligned. -/
lemma runCalloc_chain (calls : List (Nat × Nat)) :
    ∀ st : Nat, st < M64 → cursorOk st → (∀ c ∈ calls, c.2 < M64) →
    ChainBelow (callocPos0 st) (runCalloc st calls).2 ∧
      ∀ e ∈ (runCalloc st calls).2,
        HEAP_START_ADDRESS + 8 ≤ e.1 ∧ e.1 % nextPow2 e.2.2 = 0 ∧
          e.2.1 * e.2.2 < M64 := by
  induction calls with
  | nil =>
    intro st _ _ _
    exact ⟨trivial, by intro e he; cases he⟩
  | cons c calls ih =>
    intro st hst hok hin
    obtain ⟨nitems, size⟩ := c
    have hsize : size < M64 := hin (nitems, size) (List.mem_cons_self _ _)
    have hin' : ∀ c ∈ calls, c.2 < M64 := fun c hc => hin c (List.mem_cons_of_mem _ hc)
    unfold runCalloc
    rcases hres : sol_calloc st nitems size with ⟨r, st'⟩
    rcases r with _ | b
    · have hst'eq : st' = st := sol_calloc_none_snd hres
      subst hst'eq
      exact ih st' hst hok hin'
    · obtain ⟨hst'b, hHS, hs1, hs63, hprod, hmod, hfit⟩ :=
        sol_calloc_some_props hst hsize hres
      subst hst'b
      obtain ⟨hp1, hp2⟩ := callocPos0_bounds hok
      have hbne : st' ≠ 0 := by
        have : 0 < HEAP_START_ADDRESS + 8 := by unfold HEAP_START_ADDRESS; omega
        omega
      have hbM : st' < M64 := by
        have := heap_end_lt_M64
        omega
      have hbok : cursorOk st' := fun _ => ⟨hHS, by omega⟩
      obtain ⟨ihchain, ihmem⟩ := ih st' hbM hbok hin'
      rw [callocPos0_of_ne hbne] at ihchain
      constructor
      · show ChainBelow (callocPos0 st) ((st', nitems, size) :: (runCalloc st' calls).2)
        exact ⟨hfit, ihchain⟩
      · show ∀ e ∈ (st', nitems, size) :: (runCalloc st' calls).2, _
        intro e he
        rcases List.mem_cons.mp he with rfl | hmem
        · exact ⟨hHS, hmod, hprod⟩
        · exact ihmem e hmem

lemma chainBelow_mem_le :
    ∀ (l : List (Nat × Nat × Nat)) (hi : Nat), ChainBelow hi l →
      ∀ e ∈ l, e.1 + e.2.1 * e.2.2 ≤ hi
  | [], _, _, e, he => absurd he (List.not_mem_nil e)
  | (b, ni, sz) :: rest, hi, ⟨h1, h2⟩, e, he => by
    rcases List.mem_cons.mp he with rfl | hmem
    · exact h1
    · have := chainBelow_mem_le rest b h2 e hmem
      omega

lemma chainBelow_pairwise :
    ∀ (l : List (Nat × Nat × Nat)) (hi : Nat), ChainBelow hi l →
      List.Pairwise (fun p q => q.1 + q.2.1 * q.2.2 ≤ p.1) l
  | [], _, _ => List.Pairwise.nil
  | (b, ni, sz) :: rest, hi, ⟨h1, h2⟩ => by
    refine List.Pairwise.cons ?_ (chainBelow_pairwise rest b h2)
    intro q hq
    exact chainBelow_mem_le rest b h2 q hq

/-! ### Claims about `sol_calloc` -/

/-- Claim C2, counterexample: a saturating request (cursor smaller than the
    requested byte count) returns `NULL` but does **not** store `0` into the
    cursor word: starting from the reachable cursor value
    `0x300008000` (obtained by `sol_calloc(0, 8)` on a fresh heap), the
    oversized request `sol_calloc(1, 2^34)` leaves the word at
    `0x300008000`, not `0`. -/
theorem calloc_saturation_counterexample :
    sol_calloc 0 0 8 = (some 0x300008000, 0x300008000) ∧
      callocPos0 0x300008000 < callocBytes 1 (2 ^ 34) ∧
      sol_calloc 0x300008000 1 (2 ^ 34) = (none, 0x300008000) ∧
      (0x300008000 : Nat) ≠ 0 := by
  refine ⟨?_, ?_, ?_, ?_⟩ <;> decide

/-- Claim C2 (amended): whenever the (lazily initialized) cursor is smaller
    than the requested byte count, `sol_calloc` returns `NULL` and leaves the
    stored cursor word exactly as it was: the saturated value `0` exists only
    in the local variable `pos` and is discarded, because the store to the
    cursor word happens only on the success path. -/
theorem calloc_saturation_returns_null_cursor_unchanged (st nitems size : Nat)
    (h : callocPos0 st < callocBytes nitems size) :
    sol_calloc st nitems size = (none, st) := by
  apply sol_calloc_of_low
  rw [callocPos2_zero_of_sat h]
  unfold HEAP_START_ADDRESS
  omega

theorem calloc_saturation_returns_null_cursor_unchanged_witness :
    callocPos0 0x300008000 < callocBytes 1 (2 ^ 34) ∧
      sol_calloc 0x300008000 1 (2 ^ 34) = (none, 0x300008000) :=
  ⟨by decide,
    calloc_saturation_returns_null_cursor_unchanged 0x300008000 1 (2 ^ 34) (by decide)⟩

/-- Claim C3: every `sol_calloc` call that returns `NULL` leaves the cursor
    word stored at `HEAP_START` exactly as it was before the call — the store
    happens only on the success path, so failure is atomic. -/
theorem calloc_failure_atomic (st nitems size : Nat)
    (h : (sol_calloc st nitems size).1 = none) :
    (sol_calloc st nitems size).2 = st := by
  rcases hres : sol_calloc st nitems size with ⟨r, st'⟩
  rw [hres] at h
  have hr : r = none := h
  subst hr
  exact sol_calloc_none_snd hres

theorem calloc_failure_atomic_witness :
    (sol_calloc 0 1 0).1 = none ∧ (sol_calloc 0 1 0).2 = 0 :=
  ⟨by decide, calloc_failure_atomic 0 1 0 (by decide)⟩

/-- Claim C4: `sol_calloc` returns `NULL` whenever `size == 0`, and whenever
    `size != 0` and `nitems != bytes / size` for the wrapping 64-bit product
    `bytes = nitems * size mod 2^64`; in particular
    `sol_calloc(0xFFFFFFFFFFFFFFFF, 2)` returns `NULL`. -/
theorem calloc_overflow_rejected (st nitems size : Nat)
    (h : size = 0 ∨ (size ≠ 0 ∧ nitems ≠ nitems * size % M64 / size)) :
    (sol_calloc st nitems size).1 = none ∧
      (sol_calloc st (2 ^ 64 - 1) 2).1 = none := by
  constructor
  · have hov : callocOverflow nitems size := by
      unfold callocOverflow callocBytes
      rcases h with h0 | ⟨hs, hne⟩
      · exact Or.inl h0
      · refine Or.inr ⟨?_, hne⟩
        rintro (h0 | h0)
        · apply hne
          subst h0
          simp
        · exact hs h0
    rw [sol_calloc_of_overflow hov]
  · have hov : callocOverflow (2 ^ 64 - 1) 2 := by decide
    rw [sol_calloc_of_overflow hov]

theorem calloc_overflow_rejected_witness :
    ((0 : Nat) = 0 ∨ ((0 : Nat) ≠ 0 ∧ (5 : Nat) ≠ 5 * 0 % M64 / 0)) ∧
      ((sol_calloc 0 5 0).1 = none ∧ (sol_calloc 0 (2 ^ 64 - 1) 2).1 = none) :=
  ⟨Or.inl rfl, calloc_overflow_rejected 0 5 0 (Or.inl rfl)⟩

/-- Claim C5: every successful `sol_calloc(nitems, size)` returns a non-null
    base that is a multiple of the smallest power of two `≥ size` and at
    least `HEAP_START + 8`; on a fresh heap `sol_calloc(1, 8)` returns
    exactly `HEAP_START + HEAP_LENGTH - 8`, which lies in the claimed range
    and is a multiple of `8`. -/
theorem calloc_success_aligned (st nitems size b : Nat)
    (hst : st < M64) (hsize : size < M64)
    (h : (sol_calloc st nitems size).1 = some b) :
    (b ≠ 0 ∧ b % nextPow2 size = 0 ∧ HEAP_START_ADDRESS + 8 ≤ b) ∧
      ((sol_calloc 0 1 8).1 = some (HEAP_START_ADDRESS + HEAP_LENGTH - 8) ∧
        HEAP_START_ADDRESS + 8 ≤ HEAP_START_ADDRESS + HEAP_LENGTH - 8 ∧
        (HEAP_START_ADDRESS + HEAP_LENGTH - 8) % 8 = 0) := by
  refine ⟨?_, by decide, by decide, by decide⟩
  rcases hres : sol_calloc st nitems size with ⟨r, st'⟩
  rw [hres] at h
  have hr : r = some b := h
  subst hr
  obtain ⟨_, hHS, _, _, _, hmod, _⟩ := sol_calloc_some_props hst hsize hres
  have hpos : 0 < HEAP_START_ADDRESS + 8 := by unfold HEAP_START_ADDRESS; omega
  exact ⟨by omega, hmod, hHS⟩

theorem calloc_success_aligned_witness :
    ((0 : Nat) < M64 ∧ (8 : Nat) < M64 ∧ (sol_calloc 0 1 8).1 = some 0x300007FF8) ∧
      (0x300007FF8 ≠ 0 ∧ 0x300007FF8 % nextPow2 8 = 0 ∧
          HEAP_START_ADDRESS + 8 ≤ 0x300007FF8) ∧
        ((sol_calloc 0 1 8).1 = some (HEAP_START_ADDRESS + HEAP_LENGTH - 8) ∧
          HEAP_START_ADDRESS + 8 ≤ HEAP_START_ADDRESS + HEAP_LENGTH - 8 ∧
          (HEAP_START_ADDRESS + HEAP_LENGTH - 8) % 8 = 0) :=
  ⟨⟨by decide, by decide, by decide⟩,
    calloc_success_aligned 0 1 8 0x300007FF8 (by decide) (by decide) (by decide)⟩

/-- Claim C6: starting from a fresh heap, every `sol_calloc` call preserves
    the invariant that the stored cursor word, once non-zero, satisfies
    `HEAP_START + 8 ≤ cursor ≤ HEAP_START + HEAP_LENGTH`; consequently the
    final cursor of any call sequence run from the fresh heap satisfies it. -/
theorem calloc_cursor_invariant (st nitems size : Nat) (calls : List (Nat × Nat))
    (h : cursorOk st) :
    cursorOk (sol_calloc st nitems size).2 ∧ cursorOk (runCalloc 0 calls).1 :=
  ⟨cursorOk_preserved st nitems size h,
    runCalloc_fst_cursorOk calls 0 (fun h0 => absurd rfl h0)⟩

theorem calloc_cursor_invariant_witness :
    cursorOk 0 ∧
      (cursorOk (sol_calloc 0 1 8).2 ∧
        cursorOk (runCalloc 0 [(1, 8), (0, 33000)]).1) :=
  ⟨by decide, calloc_cursor_invariant 0 1 8 [(1, 8), (0, 33000)] (by decide)⟩

/-- Claim C7: after any sequence of calls from a fresh heap, the recorded
    successful allocations `(base, nitems, size)` have pairwise disjoint
    byte ranges `[base, base + nitems*size)`, and each base is a multiple of
    the smallest power of two `≥ size`. -/
theorem calloc_allocations_disjoint_aligned (calls : List (Nat × Nat))
    (hin : ∀ c ∈ calls, c.1 < M64 ∧ c.2 < M64) :
    List.Pairwise
      (fun p q : Nat × Nat × Nat =>
        p.1 + p.2.1 * p.2.2 ≤ q.1 ∨ q.1 + q.2.1 * q.2.2 ≤ p.1)
      (runCalloc 0 calls).2 ∧
      ∀ e ∈ (runCalloc 0 calls).2, e.1 % nextPow2 e.2.2 = 0 := by
  have h0 : cursorOk 0 := fun h => absurd rfl h
  have hM : (0 : Nat) < M64 := by unfold M64; positivity
  obtain ⟨hchain, hmem⟩ :=
    runCalloc_chain calls 0 hM h0 (fun c hc => (hin c hc).2)
  constructor
  · exact (chainBelow_pairwise _ _ hchain).imp fun h => Or.inr h
  · intro e he
    exact (hmem e he).2.1

theorem calloc_allocations_disjoint_aligned_witness :
    (∀ c ∈ [((1 : Nat), (8 : Nat)), (3, 5)], c.1 < M64 ∧ c.2 < M64) ∧
      (List.Pairwise
        (fun p q : Nat × Nat × Nat =>
          p.1 + p.2.1 * p.2.2 ≤ q.1 ∨ q.1 + q.2.1 * q.2.2 ≤ p.1)
        (runCalloc 0 [(1, 8), (3, 5)]).2 ∧
        ∀ e ∈ (runCalloc 0 [(1, 8), (3, 5)]).2, e.1 % nextPow2 e.2.2 = 0) :=
  ⟨by decide, calloc_allocations_disjoint_aligned [(1, 8), (3, 5)] (by decide)⟩

/-- Claim C10: on a fresh heap, `sol_calloc(0, size)` for any
    `1 ≤ size ≤ 32768` succeeds, returning the non-null address
    `HEAP_START + HEAP_LENGTH` (one past the end of the heap) and storing
    that value into the cursor word. -/
theorem calloc_zero_items_succeeds (size : Nat) (h1 : 1 ≤ size) (h2 : size ≤ 32768) :
    sol_calloc 0 0 size =
      (some (HEAP_START_ADDRESS + HEAP_LENGTH), HEAP_START_ADDRESS + HEAP_LENGTH) := by
  have hov : ¬callocOverflow 0 size := by
    unfold callocOverflow
    rintro (h0 | ⟨hc, _⟩)
    · omega
    · exact hc (Or.inl rfl)
  have hbytes : callocBytes 0 size = 0 := by
    unfold callocBytes
    simp
  have hpos0 : callocPos0 0 = HEAP_START_ADDRESS + HEAP_LENGTH := by
    unfold callocPos0
    simp
  have hpos1 : callocPos1 0 0 size = HEAP_START_ADDRESS + HEAP_LENGTH := by
    unfold callocPos1
    rw [hbytes, hpos0]
    simp
  have hk : Nat.size (size - 1) ≤ 15 := Nat.size_le.mpr (by norm_num; omega)
  have h63 : size ≤ 2 ^ 63 := by norm_num; omega
  have halign : callocAlign size = 2 ^ Nat.size (size - 1) :=
    callocAlign_eq_nextPow2 h1 h63
  have hple : (2 : Nat) ^ Nat.size (size - 1) ≤ 2 ^ 15 :=
    Nat.pow_le_pow_right (by norm_num) hk
  have hlt : (2 : Nat) ^ Nat.size (size - 1) < M64 := by
    unfold M64
    norm_num at hple ⊢
    omega
  have hdvd : 2 ^ Nat.size (size - 1) ∣ HEAP_START_ADDRESS + HEAP_LENGTH := by
    refine dvd_trans (pow_dvd_pow 2 hk) ?_
    unfold HEAP_START_ADDRESS HEAP_LENGTH
    norm_num
  have hend : HEAP_START_ADDRESS + HEAP_LENGTH < 2 ^ 64 := by
    have := heap_end_lt_M64
    unfold M64 at this
    omega
  have hpos2 : callocPos2 0 0 size = HEAP_START_ADDRESS + HEAP_LENGTH := by
    unfold callocPos2
    rw [hpos1, halign, sub64_one Nat.one_le_two_pow hlt,
      and_not64_two_pow _ _ hend (by omega)]
    exact Nat.mul_div_cancel' hdvd
  have hbd : ¬callocPos2 0 0 size < HEAP_START_ADDRESS + 8 := by
    rw [hpos2]
    unfold HEAP_START_ADDRESS HEAP_LENGTH
    omega
  rw [sol_calloc_of_ok hov hbd, hpos2]

theorem calloc_zero_items_succeeds_witness :
    ((1 : Nat) ≤ 32768 ∧ (32768 : Nat) ≤ 32768) ∧
      sol_calloc 0 0 32768 =
        (some (HEAP_START_ADDRESS + HEAP_LENGTH), HEAP_START_ADDRESS + HEAP_LENGTH) :=
  ⟨⟨by decide, by decide⟩, calloc_zero_items_succeeds 32768 (by decide) (by decide)⟩

/-! ### Claims about the byte primitives -/

lemma u8sub_eq_zero_iff (x y : Nat) : u8sub x y = 0 ↔ x % 256 = y % 256 := by
  unfold u8sub
  omega

lemma memcmpLoop_eq_zero_iff (mem : Nat → Nat) :
    ∀ (n s1 s2 : Nat),
      (memcmpLoop mem s1 s2 n = 0 ↔
        ∀ i < n, mem (s1 + i) % 256 = mem (s2 + i) % 256) := by
  intro n
  induction n with
  | zero =>
    intro s1 s2
    unfold memcmpLoop
    simp
  | succ n ih =>
    intro s1 s2
    unfold memcmpLoop
    by_cases hd : u8sub (mem s1) (mem s2) = 0
    · rw [if_neg (by simpa using hd), ih (s1 + 1) (s2 + 1)]
      constructor
      · intro h i hi
        cases i with
        | zero => simpa using (u8sub_eq_zero_iff _ _).mp hd
        | succ j =>
          have hh := h j (by omega)
          have he1 : s1 + 1 + j = s1 + (j + 1) := by omega
          have he2 : s2 + 1 + j = s2 + (j + 1) := by omega
          rw [he1, he2] at hh
          exact hh
      · intro h j hj
        have hh := h (j + 1) (by omega)
        have he1 : s1 + (j + 1) = s1 + 1 + j := by omega
        have he2 : s2 + (j + 1) = s2 + 1 + j := by omega
        rw [he1, he2] at hh
        exact hh
    · rw [if_pos (by simpa using hd)]
      constructor
      · intro h
        exact absurd h hd
      · intro hall
        exfalso
        exact hd ((u8sub_eq_zero_iff _ _).mpr (by simpa using hall 0 (by omega)))

lemma memcmpLoop_first_diff (mem : Nat → Nat) :
    ∀ (n s1 s2 j : Nat), j < n →
      (∀ i < j, mem (s1 + i) % 256 = mem (s2 + i) % 256) →
      mem (s1 + j) % 256 ≠ mem (s2 + j) % 256 →
      memcmpLoop mem s1 s2 n = u8sub (mem (s1 + j)) (mem (s2 + j)) := by
  intro n
  induction n with
  | zero =>
    intro s1 s2 j hj
    exact absurd hj (by omega)
  | succ n ih =>
    intro s1 s2 j hj heq hne
    cases j with
    | zero =>
      have hd : u8sub (mem (s1 + 0)) (mem (s2 + 0)) ≠ 0 :=
        fun h => hne ((u8sub_eq_zero_iff _ _).mp h)
      unfold memcmpLoop
      rw [if_pos (by simpa using hd)]
      simp
    | succ j =>
      have h0 : mem (s1 + 0) % 256 = mem (s2 + 0) % 256 := heq 0 (by omega)
      have hd : ¬u8sub (mem s1) (mem s2) ≠ 0 := by
        simp only [ne_eq, not_not]
        exact (u8sub_eq_zero_iff _ _).mpr (by simpa using h0)
      unfold memcmpLoop
      rw [if_neg hd]
      have heq' : ∀ i < j, mem (s1 + 1 + i) % 256 = mem (s2 + 1 + i) % 256 := by
        intro i hi
        have hh := heq (i + 1) (by omega)
        have he1 : s1 + (i + 1) = s1 + 1 + i := by omega
        have he2 : s2 + (i + 1) = s2 + 1 + i := by omega
        rw [he1, he2] at hh
        exact hh
      have hne' : mem (s1 + 1 + j) % 256 ≠ mem (s2 + 1 + j) % 256 := by
        have he1 : s1 + 1 + j = s1 + (j + 1) := by omega
        have he2 : s2 + 1 + j = s2 + (j + 1) := by omega
        rw [he1, he2]
        exact hne
      rw [ih (s1 + 1) (s2 + 1) j (by omega) heq' hne']
      have he1 : s1 + 1 + j = s1 + (j + 1) := by omega
      have he2 : s2 + 1 + j = s2 + (j + 1) := by omega
      rw [he1, he2]

/-- Claim C8: for non-null pointers over byte-valued regions, `sol_memcmp`
    returns `0` iff all `n` bytes agree; otherwise it returns the unsigned
    8-bit difference `a[i] - b[i]` at the first differing index `i`, which is
    nonzero; for a null pointer it returns a nonzero value (`1`). -/
theorem memcmp_spec (mem : Nat → Nat) (a b n : Nat)
    (hbytes : ∀ i < n, mem (a + i) < 256 ∧ mem (b + i) < 256) :
    ((a = 0 ∨ b = 0) → sol_memcmp mem a b n ≠ 0) ∧
      (a ≠ 0 → b ≠ 0 →
        ((sol_memcmp mem a b n = 0 ↔ ∀ i < n, mem (a + i) = mem (b + i)) ∧
          ∀ j < n, (∀ i < j, mem (a + i) = mem (b + i)) →
            mem (a + j) ≠ mem (b + j) →
            sol_memcmp mem a b n = (mem (a + j) + 256 - mem (b + j)) % 256 ∧
              sol_memcmp mem a b n ≠ 0)) := by
  constructor
  · intro hnull
    unfold sol_memcmp
    rw [if_pos hnull]
    omega
  · intro ha hb
    have hnn : ¬(a = 0 ∨ b = 0) := by tauto
    have hcmp : sol_memcmp mem a b n = memcmpLoop mem a b n := by
      unfold sol_memcmp
      rw [if_neg hnn]
    constructor
    · rw [hcmp, memcmpLoop_eq_zero_iff]
      constructor
      · intro h i hi
        have hh := h i hi
        obtain ⟨h1, h2⟩ := hbytes i hi
        rw [Nat.mod_eq_of_lt h1, Nat.mod_eq_of_lt h2] at hh
        exact hh
      · intro h i hi
        rw [h i hi]
    · intro j hj heq hne
      obtain ⟨h1, h2⟩ := hbytes j hj
      have heq' : ∀ i < j, mem (a + i) % 256 = mem (b + i) % 256 := by
        intro i hi
        rw [heq i hi]
      have hne' : mem (a + j) % 256 ≠ mem (b + j) % 256 := by
        rw [Nat.mod_eq_of_lt h1, Nat.mod_eq_of_lt h2]
        exact hne
      have hfd := memcmpLoop_first_diff mem n a b j hj heq' hne'
      constructor
      · rw [hcmp, hfd]
        unfold u8sub
        rw [Nat.mod_eq_of_lt h1, Nat.mod_eq_of_lt h2]
      · rw [hcmp, hfd]
        intro h0
        exact hne' ((u8sub_eq_zero_iff _ _).mp h0)

theorem memcmp_spec_witness :
    (∀ i < 3, bufMem [1, 2, 3, 1, 2, 4] 10 (10 + i) < 256 ∧
        bufMem [1, 2, 3, 1, 2, 4] 10 (13 + i) < 256) ∧
      (((10 : Nat) = 0 ∨ (13 : Nat) = 0) →
          sol_memcmp (bufMem [1, 2, 3, 1, 2, 4] 10) 10 13 3 ≠ 0) ∧
        ((10 : Nat) ≠ 0 → (13 : Nat) ≠ 0 →
          ((sol_memcmp (bufMem [1, 2, 3, 1, 2, 4] 10) 10 13 3 = 0 ↔
              ∀ i < 3, bufMem [1, 2, 3, 1, 2, 4] 10 (10 + i) =
                bufMem [1, 2, 3, 1, 2, 4] 10 (13 + i)) ∧
            ∀ j < 3,
              (∀ i < j, bufMem [1, 2, 3, 1, 2, 4] 10 (10 + i) =
                  bufMem [1, 2, 3, 1, 2, 4] 10 (13 + i)) →
                bufMem [1, 2, 3, 1, 2, 4] 10 (10 + j) ≠
                    bufMem [1, 2, 3, 1, 2, 4] 10 (13 + j) →
                  sol_memcmp (bufMem [1, 2, 3, 1, 2, 4] 10) 10 13 3 =
                      (bufMem [1, 2, 3, 1, 2, 4] 10 (10 + j) + 256 -
                        bufMem [1, 2, 3, 1, 2, 4] 10 (13 + j)) % 256 ∧
                    sol_memcmp (bufMem [1, 2, 3, 1, 2, 4] 10) 10 13 3 ≠ 0)) :=
  ⟨by decide, memcmp_spec (bufMem [1, 2, 3, 1, 2, 4] 10) 10 13 3 (by decide)⟩

/-- The four-bytes-per-round scan finds the first zero byte at its exact
    offset, whatever its residue modulo 4, given enough fuel. -/
lemma strlenLoop_spec (mem : Nat → Nat) (ref : Nat) :
    ∀ (fuel s k : Nat), ref ≤ s →
      (∀ i < k, mem (s + i) % 256 ≠ 0) → mem (s + k) % 256 = 0 →
      k < 4 * fuel →
      strlenLoop mem ref fuel s = s - ref + k := by
  intro fuel
  induction fuel with
  | zero =>
    intro s k _ _ _ hk
    exact absurd hk (by omega)
  | succ fuel ih =>
    intro s k href hprev hzero hk
    unfold strlenLoop
    by_cases h0 : mem s % 256 = 0
    · have hk0 : k = 0 := by
        by_contra hne
        exact hprev 0 (by omega) (by simpa using h0)
      rw [if_pos h0, hk0]
      omega
    rw [if_neg h0]
    have hk0 : k ≠ 0 := by
      intro h
      rw [h] at hzero
      exact h0 (by simpa using hzero)
    by_cases h1 : mem (s + 1) % 256 = 0
    · have hk1 : k = 1 := by
        by_contra hne
        exact hprev 1 (by omega) h1
      rw [if_pos h1, hk1]
    rw [if_neg h1]
    have hk1 : k ≠ 1 := fun h => h1 (h ▸ hzero)
    by_cases h2 : mem (s + 2) % 256 = 0
    · have hk2 : k = 2 := by
        by_contra hne
        exact hprev 2 (by omega) h2
      rw [if_pos h2, hk2]
    rw [if_neg h2]
    have hk2 : k ≠ 2 := fun h => h2 (h ▸ hzero)
    by_cases h3 : mem (s + 3) % 256 = 0
    · have hk3 : k = 3 := by
        by_contra hne
        exact hprev 3 (by omega) h3
      rw [if_pos h3, hk3]
    rw [if_neg h3]
    have hk3 : k ≠ 3 := fun h => h3 (h ▸ hzero)
    have hk4 : 4 ≤ k := by omega
    have hprev' : ∀ i < k - 4, mem (s + 4 + i) % 256 ≠ 0 := by
      intro i hi
      have hh := hprev (4 + i) (by omega)
      have he : s + (4 + i) = s + 4 + i := by omega
      rw [he] at hh
      exact hh
    have hzero' : mem (s + 4 + (k - 4)) % 256 = 0 := by
      have he : s + 4 + (k - 4) = s + k := by omega
      rw [he]
      exact hzero
    rw [ih (s + 4) (k - 4) (by omega) hprev' hzero' (by omega)]
    omega

/-- Claim C9: for a byte sequence whose first zero byte is at index `k`
    (all earlier bytes nonzero), `sol_strlen` returns exactly `k` —
    regardless of `k`'s residue modulo 4 — and `sol_strlen` of the null
    pointer returns `0`.  The `fuel` bound is an artifact of embedding the
    `while (1)` loop; any fuel large enough to reach the terminator gives
    the same result. -/
theorem strlen_spec (mem : Nat → Nat) (s k fuel : Nat)
    (hs : s ≠ 0) (hprev : ∀ i < k, mem (s + i) % 256 ≠ 0)
    (hzero : mem (s + k) % 256 = 0) (hfuel : k < 4 * fuel) :
    sol_strlen mem s fuel = k ∧ sol_strlen mem 0 fuel = 0 := by
  constructor
  · unfold sol_strlen
    rw [if_neg hs]
    rw [strlenLoop_spec mem s fuel s k (Nat.le_refl s) hprev hzero hfuel]
    omega
  · unfold sol_strlen
    rw [if_pos rfl]

theorem strlen_spec_witness :
    ((50 : Nat) ≠ 0 ∧
        (∀ i < 6, bufMem [104, 101, 108, 108, 111, 33, 0] 50 (50 + i) % 256 ≠ 0) ∧
        bufMem [104, 101, 108, 108, 111, 33, 0] 50 (50 + 6) % 256 = 0 ∧
        6 < 4 * 3) ∧
      (sol_strlen (bufMem [104, 101, 108, 108, 111, 33, 0] 50) 50 3 = 6 ∧
        sol_strlen (bufMem [104, 101, 108, 108, 111, 33, 0] 50) 0 3 = 0) :=
  ⟨⟨by decide, by decide, by decide, by decide⟩,
    strlen_spec (bufMem [104, 101, 108, 108, 111, 33, 0] 50) 50 6 3
      (by decide) (by decide) (by decide) (by decide)⟩

/-- Claim C1 fails on the code: `sol_memmove` with `dst < src` on
    overlapping regions is **not** a forward copy.  On the buffer
    `"abcdefgh"` (bytes 97..104) at base address 100, the call
    `sol_memmove(buf, buf+2, 6)` produces `"ghghghgh"`, not the claimed
    `"cdefghgh"`: the missing `return` after the `dest < source` branch
    makes the backward loop run after `sol_memcpy` and re-copy from the
    already-overwritten source.  The forward copy alone (`sol_memcpy`)
    does produce the claimed `"cdefghgh"`. -/
theorem memmove_forward_overlap_diverges :
    readBytes (sol_memmove (bufMem abcdefgh 100) 100 102 6) 100 8 =
        [103, 104, 103, 104, 103, 104, 103, 104] ∧
      readBytes (sol_memcpy (bufMem abcdefgh 100) 100 102 6) 100 8 =
        [99, 100, 101, 102, 103, 104, 103, 104] ∧
      readBytes (sol_memmove (bufMem abcdefgh 100) 100 102 6) 100 8 ≠
        [99, 100, 101, 102, 103, 104, 103, 104] := by
  exact ⟨by decide, by decide, by decide⟩

end SolString
